import Mathlib

/-!
# Thread pool and batch driver of the parallel sudoku solver

A shallow embedding of `Source/threadpool.h` and of the driver
`Source/sudoku_solve_threadpool.cc`, followed by the properties proved about them.

The pool is a state machine.  `queue_mutex` serialises every access to `tasks` and `stop`
made by `enqueue` and by the worker loop, so each critical section is one atomic step of
the machine.  `condition.wait(lock, pred)` is `while (!pred()) wait(lock)`: a waiting worker
may evaluate `pred` at any time (a notification or a spurious wake-up) and continues only in
a state in which `pred` holds, so notifications themselves are not part of the state.
`ThreadPool::close` is the single assignment `stop = true`, one more atomic step.
-/

namespace Sudoku

/-- What one call of the callable bound by `std::bind(f, args...)` does: it returns a
value or it throws. -/
inductive Outcome where
  | returned (value : Int)
  | threw (what : Nat)
deriving DecidableEq

/-- Shared state of a `std::packaged_task` and of the `std::future` obtained from it. -/
inductive SharedState where
  | pending
  | ready (result : Outcome)
deriving DecidableEq

/-- An element of `tasks`: the closure `[task]() { (*task)(); }`, which holds the pointer
`task` to a packaged task (`shared` is the address of its shared state) wrapping the bound
callable (`body` is what calling it does). -/
structure Task where
  shared : Nat
  body : Outcome
deriving DecidableEq

/-- Where a worker thread is in the lambda of `ThreadPool::start`:
`waiting` at `condition.wait` (lines 62-68), `running task` between the closing brace of
the critical section and the call `task()` (line 81), `exited` after the `return` of
line 72, `aborted` when an exception left the lambda. -/
inductive Worker where
  | waiting
  | running (task : Task)
  | exited
  | aborted
deriving DecidableEq

/-- The members `workers`, `tasks` and `stop` of `class ThreadPool`, and the shared states
allocated so far by `std::make_shared<std::packaged_task<...>>` (`heap`). -/
structure ThreadPool where
  workers : List Worker
  tasks : List Task
  stop : Bool
  heap : List SharedState
deriving DecidableEq

/-- What `ThreadPool::enqueue` gives its caller: the future of the new task, or the
exception `std::runtime_error("enqueue on stopped ThreadPool")`. -/
inductive EnqueueResult where
  | future (shared : Nat)
  | runtime_error
deriving DecidableEq

/-- One atomic step of the pool: a call of `enqueue`, a call of `close`, worker `i` going
through its critical section (lines 62-78), worker `i` calling `task()` (line 81). -/
inductive Step where
  | enqueue (f : Outcome)
  | close
  | wake (i : Nat)
  | run (i : Nat)
deriving DecidableEq

namespace ThreadPool

/-- The constructor `ThreadPool::ThreadPool() : stop(false)`. -/
def create : ThreadPool :=
  { workers := [], tasks := [], stop := false, heap := [] }

/-- The function `ThreadPool::start(threads)`: `threads` new workers, each entering its loop. -/
def start (p : ThreadPool) (threads : Nat) : ThreadPool :=
  { p with workers := p.workers ++ List.replicate threads Worker.waiting }

/-- The function `ThreadPool::close()`: the assignment `stop = true`, nothing else. -/
def close (p : ThreadPool) : ThreadPool :=
  { p with stop := true }

/-- The function `ThreadPool::enqueue(f, args...)`: the packaged task and its future are created, then
under the lock either `stop` is set and `std::runtime_error` is thrown (the local `task`
and `res` are destroyed with the frame), or the closure is put at the back of `tasks`. -/
def enqueue (p : ThreadPool) (f : Outcome) : EnqueueResult × ThreadPool :=
  let task : Task := { shared := p.heap.length, body := f }
  if p.stop then
    (EnqueueResult.runtime_error, p)
  else
    (EnqueueResult.future task.shared,
      { p with tasks := p.tasks ++ [task], heap := p.heap ++ [SharedState.pending] })

/-- The predicate of `condition.wait`: `stop || !tasks.empty()`. -/
def pred (p : ThreadPool) : Bool :=
  p.stop || !p.tasks.isEmpty

/-- Lines 62-78 of the worker loop, for worker `i`: past the wait, `return` when
`stop && tasks.empty()`, otherwise move `tasks.front()` into the local `task` and pop it. -/
def wake (p : ThreadPool) (i : Nat) : ThreadPool :=
  match p.workers[i]? with
  | some Worker.waiting =>
    if p.pred then
      if p.stop && p.tasks.isEmpty then
        { p with workers := p.workers.set i Worker.exited }
      else
        match p.tasks with
        | [] => p
        | task :: rest => { p with workers := p.workers.set i (Worker.running task), tasks := rest }
    else p
  | _ => p

/-- The call `(*task)()` of `std::packaged_task::operator()`: with a shared state that is
still pending the callable runs and its return value or its exception is stored and the
state made ready; otherwise `std::future_error` is thrown (`none`). -/
def invoke (heap : List SharedState) (task : Task) : Option (List SharedState) :=
  match heap[task.shared]? with
  | some SharedState.pending => some (heap.set task.shared (SharedState.ready task.body))
  | _ => none

/-- Line 81 of the worker loop, for worker `i`: `task()`, then back to the top of
`for (;;)`.  The lambda has no handler, so an exception thrown by `task()` leaves it. -/
def run (p : ThreadPool) (i : Nat) : ThreadPool :=
  match p.workers[i]? with
  | some (Worker.running task) =>
    match invoke p.heap task with
    | some heap => { p with workers := p.workers.set i Worker.waiting, heap := heap }
    | none => { p with workers := p.workers.set i Worker.aborted }
  | _ => p

/-- The pool after one step. -/
def step (p : ThreadPool) : Step → ThreadPool
  | Step.enqueue f => (p.enqueue f).2
  | Step.close => p.close
  | Step.wake i => p.wake i
  | Step.run i => p.run i

/-- The pool after a sequence of steps. -/
def exec (p : ThreadPool) (steps : List Step) : ThreadPool :=
  steps.foldl step p

/-- The task a step puts into the queue: the one of a call of `enqueue` that returns a
future. -/
def accepts (p : ThreadPool) : Step → List Task
  | Step.enqueue f =>
    match (p.enqueue f).1 with
    | EnqueueResult.future shared => [{ shared := shared, body := f }]
    | EnqueueResult.runtime_error => []
  | _ => []

/-- The task a step moves out of the queue into a worker's local `task`. -/
def takes (p : ThreadPool) : Step → List (Nat × Task)
  | Step.wake i =>
    match p.workers[i]?, (p.wake i).workers[i]? with
    | some Worker.waiting, some (Worker.running task) => [(i, task)]
    | _, _ => []
  | _ => []

/-- The shared state a step makes ready. -/
def completes (p : ThreadPool) : Step → List Nat
  | Step.run i =>
    match p.workers[i]? with
    | some (Worker.running task) =>
      match invoke p.heap task with
      | some _ => [task.shared]
      | none => []
    | _ => []
  | _ => []

/-- The tasks successfully enqueued along a sequence of steps, in enqueue order. -/
def enqueued (p : ThreadPool) : List Step → List Task
  | [] => []
  | s :: rest => p.accepts s ++ enqueued (p.step s) rest

/-- The (worker, task) pairs of the dequeues along a sequence of steps, in dequeue order. -/
def taken (p : ThreadPool) : List Step → List (Nat × Task)
  | [] => []
  | s :: rest => p.takes s ++ taken (p.step s) rest

/-- The shared states made ready along a sequence of steps, one entry per completion. -/
def completed (p : ThreadPool) : List Step → List Nat
  | [] => []
  | s :: rest => p.completes s ++ completed (p.step s) rest

/-- Ownership of the packaged tasks, as a property of a pool state: every task in the queue
or held by a worker has a pending shared state, no two of them share one, and no exception
has left a worker. -/
def Owned (p : ThreadPool) : Prop :=
  (∀ task ∈ p.tasks, p.heap[task.shared]? = some SharedState.pending) ∧
  (p.tasks.map Task.shared).Nodup ∧
  (∀ (i : Nat) (task : Task), p.workers[i]? = some (Worker.running task) →
    p.heap[task.shared]? = some SharedState.pending ∧ task.shared ∉ p.tasks.map Task.shared) ∧
  (∀ (i j : Nat) (task task2 : Task), p.workers[i]? = some (Worker.running task) →
    p.workers[j]? = some (Worker.running task2) → task.shared = task2.shared → i = j) ∧
  (∀ i : Nat, p.workers[i]? ≠ some Worker.aborted)

end ThreadPool

end Sudoku

/-! ## The driver

`int` values are integers reduced to 32 bits in two's complement after every addition
(`wrapInt`), `/` is the truncating division of C++.  `N`, the width of a record, comes from
`sudoku.h`, which is not part of the sources: it is a parameter.  The solver
`solve_sudoku_dancing_links` is a parameter as well.  Bytes are natural numbers below 256.
`file_process` has no result (`none`) where the code has no defined behaviour: a line
written past the end of `one_puzzle`, a division by zero or an overflowing sum in line 134.
-/

namespace Sudoku

/-- The largest `int`. -/
def INT_MAX : Int := 2147483647

/-- The value of an `int` computed as the integer `x`: `x` reduced to 32 bits, two's
complement. -/
def wrapInt (x : Int) : Int :=
  (x + 2147483648) % 4294967296 - 2147483648

/-- The constant `const int puzzle_buf_num = 10240`. -/
def puzzle_buf_num : Nat := 10240

/-- The number of characters of the global `char one_puzzle[128]`. -/
def one_puzzle_size : Nat := 128

/-- One record, `int [N]`. -/
abbrev Board := Nat → Int

/-- The global `int puzzle_buf[puzzle_buf_num][N]`. -/
abbrev PuzzleBuf := Nat → Board

/-- The function `solve(start, end)`: `for (int i = start; i < end; i++)` the solver is
applied to `puzzle_buf[i]` in place; the value returned is 0. -/
def solve (solver : Board → Board) (puzzle_buf : PuzzleBuf) (start end_ : Int) :
    PuzzleBuf × Int :=
  ((List.range (end_ - start).toNat).foldl
      (fun (buf : PuzzleBuf) (k : Nat) => Function.update buf (start + (k : Int)).toNat
        (solver (buf (start + (k : Int)).toNat)))
      puzzle_buf,
    0)

/-- The function `putchar(c)`: the byte written, `c` converted to `unsigned char`. -/
def putchar (c : Int) : Nat :=
  (c % 256).toNat

/-- The function `print(line_num)`: for each of the first `line_num` records its `N` cells,
each as `putchar('0' + cell)`, then `putchar('\n')`. -/
def print (N : Nat) (puzzle_buf : PuzzleBuf) (line_num : Nat) : List Nat :=
  (List.range line_num).flatMap fun i =>
    (List.range N).map (fun j => putchar (wrapInt (48 + puzzle_buf i j))) ++ [putchar 10]

/-- An input file stream: the bytes not yet extracted, `eofbit` and `failbit`. -/
structure ifstream where
  data : List Nat
  eofbit : Bool
  failbit : Bool
deriving DecidableEq

namespace ifstream

/-- The declaration `ifstream input_file(file_name, ios::in)` on a file that opens: all its bytes are
ahead, no state bit is set. -/
def ofFile (file : List Nat) : ifstream :=
  { data := file, eofbit := false, failbit := false }

/-- The call `input_file.eof()`. -/
def eof (s : ifstream) : Bool := s.eofbit

/-- The extraction loop of `istream::getline(s, count)` with `room` characters still to be
stored: it ends at the end of the file (`eofbit`), or at the delimiter `'\n'`, which is
extracted and not stored, or when `count - 1` characters are stored and the next one is not
the delimiter (`failbit`).  The result: the characters stored, the bytes left, whether the
end of the file was met, whether the room ran out. -/
def getlineLoop : List Nat → Nat → List Nat → List Nat × List Nat × Bool × Bool
  | [], _, stored => (stored, [], true, false)
  | c :: cs, room, stored =>
    if c = 10 then (stored, cs, false, false)
    else
      match room with
      | 0 => (stored, c :: cs, false, true)
      | room + 1 => getlineLoop cs room (stored ++ [c])

/-- The call `input_file.getline(s, count)`: the string stored in `s` (without its terminating
zero) and the stream after the call.  On a stream that is not good nothing is extracted,
the empty string is stored and `failbit` is set; `failbit` is also set when the call
extracts no character at all. -/
def getline (s : ifstream) (count : Nat) : List Nat × ifstream :=
  if s.eofbit || s.failbit then
    ([], { s with failbit := true })
  else
    match getlineLoop s.data (count - 1) [] with
    | (stored, rest, eof, full) =>
      (stored,
        { data := rest, eofbit := eof,
          failbit := full || decide (s.data.length - rest.length = 0) })

end ifstream

/-- The value `strlen(s)` of the characters held by a buffer: the number of them before the first
zero. -/
def strlen (s : List Nat) : Nat :=
  (s.takeWhile (fun c => decide (c ≠ 0))).length

/-- The `int` a `char` holding byte `b` is promoted to (`char` is signed). -/
def charToInt (b : Nat) : Int :=
  if b < 128 then (b : Int) else (b : Int) - 256

namespace file_process

/-- Lines 120-121: `for (int i = 0; i < N; i++) puzzle_buf[line_num][i] = one_puzzle[i] - 48`. -/
def store (N : Nat) (one_puzzle : List Nat) (row : Board) : Board :=
  fun i => if i < N then wrapInt (charToInt (one_puzzle.getD i 0) - 48) else row i

/-- The read loop, lines 110-125, with `fuel` bounding the number of iterations: the
stream, `line_num` and `puzzle_buf` when the loop is left; `none` when the fuel runs out
first, and when `getline(one_puzzle, N + 1)` stores a string that, with its terminating
zero, does not fit the `one_puzzle_size` characters of `one_puzzle`. -/
def readLoop (N : Nat) : Nat → ifstream → Nat → PuzzleBuf → Option (ifstream × Nat × PuzzleBuf)
  | 0, _, _, _ => none
  | fuel + 1, input_file, line_num, puzzle_buf =>
    if !input_file.eof && decide (line_num < puzzle_buf_num) then
      match input_file.getline (N + 1) with
      | (one_puzzle, input_file) =>
        if one_puzzle.length + 1 > one_puzzle_size then
          none
        else if strlen one_puzzle ≥ N then
          readLoop N fuel input_file (line_num + 1)
            (Function.update puzzle_buf line_num (store N one_puzzle (puzzle_buf line_num)))
        else
          readLoop N fuel input_file line_num puzzle_buf
    else
      some (input_file, line_num, puzzle_buf)

/-- Line 134: `len = (line_num + thread_num) / thread_num`. -/
def len (line_num thread_num : Int) : Int :=
  Int.tdiv (wrapInt (line_num + thread_num)) thread_num

/-- The loop of lines 137-143 with `count` iterations to go and the current `start`: the
arguments `(start, end)` of its calls `thread_pool.enqueue(solve, start, end)`, in order. -/
def ranges (line_num len : Int) : Nat → Int → List (Int × Int)
  | 0, _ => []
  | count + 1, start =>
    (start, if wrapInt (start + len) ≥ line_num then line_num else wrapInt (start + len))
      :: ranges line_num len count (wrapInt (start + len))

/-- Lines 134-143 for `line_num` records and `thread_num` workers: the `(start, end)` of
the tasks submitted to the pool, in submission order. -/
def partition (line_num thread_num : Int) : List (Int × Int) :=
  ranges line_num (len line_num thread_num) thread_num.toNat 0

/-- Lines 134-149: the tasks are submitted and all their futures waited for, so every
submitted call of `solve` has run, once, when `print` is reached.  They are run here one
after the other in submission order. -/
def solveAll (solver : Board → Board) (thread_num : Int) (line_num : Nat)
    (puzzle_buf : PuzzleBuf) : PuzzleBuf :=
  (partition (line_num : Int) thread_num).foldl
    (fun buf r => (solve solver buf r.1 r.2).1) puzzle_buf

/-- The loop `while (!input_file.eof())` of lines 99-164, with `fuel` bounding its
iterations and those of each read loop: what is written to the standard output; `none`
when the fuel runs out, when the read loop has no result, and when line 134 divides by
`thread_num = 0` or forms a sum `line_num + thread_num` that is not an `int`. -/
def batches (N : Nat) (solver : Board → Board) (thread_num : Int) :
    Nat → ifstream → PuzzleBuf → Option (List Nat)
  | 0, _, _ => none
  | fuel + 1, input_file, puzzle_buf =>
    if !input_file.eof then
      match readLoop N fuel input_file 0 puzzle_buf with
      | none => none
      | some (input_file, line_num, puzzle_buf) =>
        if thread_num = 0 ∨ (line_num : Int) + thread_num > INT_MAX then
          none
        else
          match batches N solver thread_num fuel input_file
              (solveAll solver thread_num line_num puzzle_buf) with
          | none => none
          | some out =>
            some (print N (solveAll solver thread_num line_num puzzle_buf) line_num ++ out)
    else
      some []

end file_process

/-- The function `file_process(file_name)` on a file holding the bytes `file`: the bytes written to the
standard output. -/
def file_process (N : Nat) (solver : Board → Board) (thread_num : Int) (puzzle_buf : PuzzleBuf)
    (fuel : Nat) (file : List Nat) : Option (List Nat) :=
  file_process.batches N solver thread_num fuel (ifstream.ofFile file) puzzle_buf

end Sudoku

namespace Sudoku

/-- A record of the input file, a line of exactly `N` characters: `N` bytes, none of them
the line delimiter `'\n'` or the string terminator. -/
def IsRecord (N : Nat) (r : List Nat) : Prop :=
  r.length = N ∧ ∀ b ∈ r, b ≠ 0 ∧ b ≠ 10 ∧ b < 256

/-- The bytes of a text made of the given lines, each terminated by `'\n'`. -/
def lines (records : List (List Nat)) : List Nat :=
  records.flatMap fun r => r ++ [10]

end Sudoku

/-! ## Properties of the pool -/

namespace Sudoku

namespace ThreadPool

theorem exec_cons (p : ThreadPool) (s : Step) (rest : List Step) :
    p.exec (s :: rest) = (p.step s).exec rest := rfl

theorem exec_append (p : ThreadPool) (xs ys : List Step) :
    p.exec (xs ++ ys) = (p.exec xs).exec ys := by
  simp [exec, List.foldl_append]

theorem stop_step (p : ThreadPool) (s : Step) :
    (p.step s).stop = (p.stop || decide (s = Step.close)) := by
  cases s with
  | enqueue f => simp only [step, enqueue]; split <;> simp
  | close => simp [step, close]
  | wake i =>
    simp only [step, wake]
    repeat' split
    all_goals simp
  | run i =>
    simp only [step, run]
    repeat' split
    all_goals simp

theorem stop_exec (p : ThreadPool) (steps : List Step) :
    (p.exec steps).stop = true ↔ p.stop = true ∨ Step.close ∈ steps := by
  induction steps generalizing p with
  | nil => simp [exec]
  | cons s rest ih =>
    rw [exec_cons, ih, stop_step]
    simp only [Bool.or_eq_true, decide_eq_true_eq, List.mem_cons]
    constructor
    · rintro ((h | h) | h)
      · exact Or.inl h
      · exact Or.inr (Or.inl h.symm)
      · exact Or.inr (Or.inr h)
    · rintro (h | h | h)
      · exact Or.inl (Or.inl h)
      · exact Or.inl (Or.inr h.symm)
      · exact Or.inr h

/-- The three ways worker `i` can go through its critical section. -/
theorem wake_cases (p : ThreadPool) (i : Nat) :
    (p.wake i = p ∧ (p.workers[i]? ≠ some Worker.waiting ∨ p.pred = false)) ∨
    (p.workers[i]? = some Worker.waiting ∧ p.stop = true ∧ p.tasks = [] ∧
      p.wake i = { p with workers := p.workers.set i Worker.exited }) ∨
    (∃ task rest, p.workers[i]? = some Worker.waiting ∧ p.tasks = task :: rest ∧
      p.wake i = { p with workers := p.workers.set i (Worker.running task), tasks := rest }) := by
  unfold wake
  split
  · rename_i hw
    by_cases hp : p.pred = true
    · rw [if_pos hp]
      cases ht : p.tasks with
      | nil =>
        have hs : p.stop = true := by simpa [pred, ht] using hp
        right; left
        simp [hs, ht, hw]
      | cons task rest =>
        right; right
        exact ⟨task, rest, hw, rfl, by simp⟩
    · rw [if_neg hp]
      left
      exact ⟨rfl, Or.inr (by simpa using hp)⟩
  · rename_i hw
    left
    exact ⟨rfl, Or.inl (fun h => hw h)⟩

/-- The three ways worker `i` can go through line 81. -/
theorem run_cases (p : ThreadPool) (i : Nat) :
    (p.run i = p ∧ ∀ task, p.workers[i]? ≠ some (Worker.running task)) ∨
    (∃ task, p.workers[i]? = some (Worker.running task) ∧
      p.heap[task.shared]? = some SharedState.pending ∧
      p.run i = { p with workers := p.workers.set i Worker.waiting,
                         heap := p.heap.set task.shared (SharedState.ready task.body) }) ∨
    (∃ task, p.workers[i]? = some (Worker.running task) ∧
      p.heap[task.shared]? ≠ some SharedState.pending ∧
      p.run i = { p with workers := p.workers.set i Worker.aborted }) := by
  unfold run
  split
  · rename_i task hw
    by_cases hh : p.heap[task.shared]? = some SharedState.pending
    · right; left
      exact ⟨task, hw, hh, by simp [invoke, hh]⟩
    · right; right
      refine ⟨task, hw, hh, ?_⟩
      have : invoke p.heap task = none := by
        unfold invoke
        split
        · rename_i h; exact absurd h hh
        · rfl
      simp [this]
  · rename_i hw
    left
    exact ⟨rfl, fun task h => hw task h⟩

/-- One step: what is taken, followed by what stays queued, is what was queued, followed
by what is accepted. -/
theorem takes_append_tasks (p : ThreadPool) (s : Step) :
    (p.takes s).map Prod.snd ++ (p.step s).tasks = p.tasks ++ p.accepts s := by
  cases s with
  | enqueue f =>
    cases h : p.stop <;> simp [takes, accepts, step, enqueue, h]
  | close => simp [takes, accepts, step, close]
  | wake i =>
    simp only [accepts, step, List.append_nil]
    rcases wake_cases p i with ⟨h, hne⟩ | ⟨hw, hs, ht, h⟩ | ⟨task, rest, hw, ht, h⟩
    · have : p.takes (Step.wake i) = [] := by
        simp only [takes, h]
        split
        · rename_i h1 h2; rw [h1] at h2; cases h2
        · rfl
      simp [this, h]
    · have hi : i < p.workers.length := (List.getElem?_eq_some.1 hw).1
      have : p.takes (Step.wake i) = [] := by
        simp only [takes, h, hw, List.getElem?_set_self hi]
      simp [this, h]
    · have hi : i < p.workers.length := (List.getElem?_eq_some.1 hw).1
      have : p.takes (Step.wake i) = [(i, task)] := by
        simp only [takes, h, hw, List.getElem?_set_self hi]
      simp [this, h, ht]
  | run i =>
    simp only [accepts, takes, step, List.append_nil, List.map_nil, List.nil_append]
    rcases run_cases p i with ⟨h, _⟩ | ⟨task, _, _, h⟩ | ⟨task, _, _, h⟩ <;> rw [h]

/-- Along any run: what was taken, followed by what is queued, is what was queued at the
beginning, followed by what was accepted. -/
theorem taken_append_tasks (p : ThreadPool) (steps : List Step) :
    (p.taken steps).map Prod.snd ++ (p.exec steps).tasks = p.tasks ++ p.enqueued steps := by
  induction steps generalizing p with
  | nil => simp [taken, enqueued, exec]
  | cons s rest ih =>
    rw [exec_cons]
    simp only [taken, enqueued, List.map_append, List.append_assoc]
    rw [ih (p.step s), ← List.append_assoc, takes_append_tasks, List.append_assoc]

theorem heap_length_step (p : ThreadPool) (s : Step) :
    p.heap.length ≤ (p.step s).heap.length := by
  cases s with
  | enqueue f => cases h : p.stop <;> simp [step, enqueue, h]
  | close => simp [step, close]
  | wake i =>
    simp only [step]
    rcases wake_cases p i with ⟨h, _⟩ | ⟨_, _, _, h⟩ | ⟨task, rest, _, _, h⟩ <;> rw [h]
  | run i =>
    simp only [step]
    rcases run_cases p i with ⟨h, _⟩ | ⟨task, _, _, h⟩ | ⟨task, _, _, h⟩ <;> simp [h]

theorem accepts_cases (p : ThreadPool) (s : Step) :
    p.accepts s = [] ∨
    ∃ f, s = Step.enqueue f ∧ p.stop = false ∧
      p.accepts s = [{ shared := p.heap.length, body := f }] := by
  cases s with
  | enqueue f =>
    cases h : p.stop
    · right; exact ⟨f, rfl, rfl, by simp [accepts, enqueue, h]⟩
    · left; simp [accepts, enqueue, h]
  | close => left; rfl
  | wake i => left; rfl
  | run i => left; rfl

theorem enqueued_shared_ge (p : ThreadPool) (steps : List Step) :
    ∀ task ∈ p.enqueued steps, p.heap.length ≤ task.shared := by
  induction steps generalizing p with
  | nil => simp [enqueued]
  | cons s rest ih =>
    intro task ht
    simp only [enqueued, List.mem_append] at ht
    rcases ht with ht | ht
    · rcases accepts_cases p s with h | ⟨f, _, _, h⟩
      · simp [h] at ht
      · rw [h] at ht
        simp only [List.mem_singleton] at ht
        simp [ht]
    · exact le_trans (heap_length_step p s) (ih _ task ht)

theorem enqueued_shared_nodup (p : ThreadPool) (steps : List Step) :
    ((p.enqueued steps).map Task.shared).Nodup := by
  induction steps generalizing p with
  | nil => simp [enqueued]
  | cons s rest ih =>
    simp only [enqueued, List.map_append]
    rcases accepts_cases p s with h | ⟨f, hs, hstop, h⟩
    · simpa [h] using ih (p.step s)
    · rw [h]
      simp only [List.map_cons, List.map_nil, List.singleton_append, List.nodup_cons]
      refine ⟨?_, ih _⟩
      intro hmem
      obtain ⟨task, ht, hsh⟩ := List.mem_map.1 hmem
      have hge := enqueued_shared_ge (p.step s) rest task ht
      have hlen : (p.step s).heap.length = p.heap.length + 1 := by
        simp [hs, step, enqueue, hstop]
      omega

theorem getElem?_set_some {α : Type} (l : List α) (i j : Nat) (a b : α)
    (h : (l.set i a)[j]? = some b) : (j = i ∧ b = a) ∨ (j ≠ i ∧ l[j]? = some b) := by
  rw [List.getElem?_set] at h
  by_cases hij : i = j
  · rw [if_pos hij] at h
    split at h
    · left; exact ⟨hij.symm, (Option.some.inj h).symm⟩
    · cases h
  · rw [if_neg hij] at h
    right; exact ⟨fun e => hij e.symm, h⟩

theorem getElem?_append_some {α : Type} (l : List α) (k : Nat) (a b : α)
    (h : l[k]? = some a) : (l ++ [b])[k]? = some a ∧ k ≠ l.length := by
  have hk : k < l.length := (List.getElem?_eq_some.1 h).1
  exact ⟨by rw [List.getElem?_append_left hk]; exact h, Nat.ne_of_lt hk⟩

theorem owned_start (threads : Nat) : Owned (create.start threads) := by
  have hw : ∀ (i : Nat) (w : Worker), (create.start threads).workers[i]? = some w →
      w = Worker.waiting := by
    intro i w h
    simp only [create, start, List.nil_append] at h
    obtain ⟨_, h2⟩ := List.getElem?_eq_some.1 h
    simpa using h2.symm
  refine ⟨?_, ?_, ?_, ?_, ?_⟩
  · intro task ht; simp [create, start] at ht
  · simp [create, start]
  · intro i task h; cases hw i _ h
  · intro i j task task2 h; cases hw i _ h
  · intro i h; cases hw i _ h

theorem owned_enqueue (p : ThreadPool) (f : Outcome) (hp : Owned p) :
    Owned (p.enqueue f).2 := by
  obtain ⟨h1, h2, h3, h4, h5⟩ := hp
  cases hs : p.stop
  · simp only [enqueue, hs, Bool.false_eq_true, if_false]
    refine ⟨?_, ?_, ?_, h4, h5⟩
    · intro task ht
      rcases List.mem_append.1 ht with ht | ht
      · exact (getElem?_append_some _ _ _ _ (h1 task ht)).1
      · rw [List.mem_singleton.1 ht]
        simp
    · simp only [List.map_append, List.map_cons, List.map_nil]
      refine List.nodup_append.2 ⟨h2, List.nodup_singleton _, ?_⟩
      intro a ha hb
      rw [List.mem_singleton.1 hb] at ha
      obtain ⟨task, ht, hsh⟩ := List.mem_map.1 ha
      exact (getElem?_append_some _ _ _ SharedState.pending (h1 task ht)).2 hsh
    · intro i task hi
      have := getElem?_append_some _ _ _ SharedState.pending (h3 i task hi).1
      refine ⟨this.1, ?_⟩
      simp only [List.map_append, List.map_cons, List.map_nil, List.mem_append,
        List.mem_singleton, not_or]
      exact ⟨(h3 i task hi).2, this.2⟩
  · simp only [enqueue, hs, if_true]
    exact ⟨h1, h2, h3, h4, h5⟩

theorem owned_wake (p : ThreadPool) (k : Nat) (hp : Owned p) : Owned (p.wake k) := by
  obtain ⟨h1, h2, h3, h4, h5⟩ := hp
  rcases wake_cases p k with ⟨h, _⟩ | ⟨_, _, _, h⟩ | ⟨task, rest, _, ht, h⟩
  · rw [h]; exact ⟨h1, h2, h3, h4, h5⟩
  · rw [h]
    refine ⟨h1, h2, ?_, ?_, ?_⟩
    · intro i task hi
      rcases getElem?_set_some _ _ _ _ _ hi with ⟨_, e⟩ | ⟨_, e⟩
      · cases e
      · exact h3 i task e
    · intro i j task task2 hi hj
      rcases getElem?_set_some _ _ _ _ _ hi with ⟨_, e⟩ | ⟨_, e⟩
      · cases e
      rcases getElem?_set_some _ _ _ _ _ hj with ⟨_, e2⟩ | ⟨_, e2⟩
      · cases e2
      exact h4 i j task task2 e e2
    · intro i hi
      rcases getElem?_set_some _ _ _ _ _ hi with ⟨_, e⟩ | ⟨_, e⟩
      · cases e
      · exact h5 i e
  · rw [h]
    rw [ht] at h1 h2 h3
    simp only [List.map_cons, List.nodup_cons] at h2
    have key : ∀ (i : Nat) (u : Task),
        (p.workers.set k (Worker.running task))[i]? = some (Worker.running u) →
        (i = k ∧ u = task) ∨ (i ≠ k ∧ p.workers[i]? = some (Worker.running u)) := by
      intro i u hi
      rcases getElem?_set_some _ _ _ _ _ hi with ⟨e1, e⟩ | ⟨e1, e⟩
      · left; exact ⟨e1, by cases e; rfl⟩
      · right; exact ⟨e1, e⟩
    refine ⟨?_, h2.2, ?_, ?_, ?_⟩
    · intro u hu
      exact h1 u (List.mem_cons_of_mem _ hu)
    · intro i u hi
      rcases key i u hi with ⟨_, e⟩ | ⟨_, e⟩
      · rw [e]
        exact ⟨h1 task (List.mem_cons_self _ _), h2.1⟩
      · refine ⟨(h3 i u e).1, ?_⟩
        intro hmem
        exact (h3 i u e).2 (List.mem_cons_of_mem _ hmem)
    · intro i j u v hi hj huv
      rcases key i u hi with ⟨ei, eu⟩ | ⟨_, eu⟩ <;> rcases key j v hj with ⟨ej, ev⟩ | ⟨_, ev⟩
      · rw [ei, ej]
      · exfalso
        apply (h3 j v ev).2
        rw [← huv, eu]
        simp
      · exfalso
        apply (h3 i u eu).2
        rw [huv, ev]
        simp
      · exact h4 i j u v eu ev huv
    · intro i hi
      rcases getElem?_set_some _ _ _ _ _ hi with ⟨_, e⟩ | ⟨_, e⟩
      · cases e
      · exact h5 i e

theorem owned_run (p : ThreadPool) (k : Nat) (hp : Owned p) : Owned (p.run k) := by
  obtain ⟨h1, h2, h3, h4, h5⟩ := hp
  rcases run_cases p k with ⟨h, _⟩ | ⟨task, hk, _, h⟩ | ⟨task, hk, hne, _⟩
  · rw [h]; exact ⟨h1, h2, h3, h4, h5⟩
  · rw [h]
    refine ⟨?_, h2, ?_, ?_, ?_⟩
    · intro u hu
      have hne : task.shared ≠ u.shared := by
        intro e
        exact (h3 k task hk).2 (List.mem_map.2 ⟨u, hu, e.symm⟩)
      show (p.heap.set task.shared _)[u.shared]? = _
      rw [List.getElem?_set_ne hne]
      exact h1 u hu
    · intro i u hi
      rcases getElem?_set_some _ _ _ _ _ hi with ⟨_, e⟩ | ⟨e1, e⟩
      · cases e
      · have hne : task.shared ≠ u.shared := by
          intro e2
          exact e1 (h4 k i task u hk e e2).symm
        refine ⟨?_, (h3 i u e).2⟩
        show (p.heap.set task.shared _)[u.shared]? = _
        rw [List.getElem?_set_ne hne]
        exact (h3 i u e).1
    · intro i j u v hi hj
      rcases getElem?_set_some _ _ _ _ _ hi with ⟨_, e⟩ | ⟨_, e⟩
      · cases e
      rcases getElem?_set_some _ _ _ _ _ hj with ⟨_, e2⟩ | ⟨_, e2⟩
      · cases e2
      exact h4 i j u v e e2
    · intro i hi
      rcases getElem?_set_some _ _ _ _ _ hi with ⟨_, e⟩ | ⟨_, e⟩
      · cases e
      · exact h5 i e
  · exact absurd (h3 k task hk).1 hne

theorem owned_step (p : ThreadPool) (s : Step) (hp : Owned p) : Owned (p.step s) := by
  cases s with
  | enqueue f => exact owned_enqueue p f hp
  | close => exact hp
  | wake i => exact owned_wake p i hp
  | run i => exact owned_run p i hp

theorem owned_exec (p : ThreadPool) (steps : List Step) (hp : Owned p) :
    Owned (p.exec steps) := by
  induction steps generalizing p with
  | nil => exact hp
  | cons s rest ih => rw [exec_cons]; exact ih _ (owned_step p s hp)

/-- A shared state that is ready stays ready, with the same result. -/
theorem ready_step (p : ThreadPool) (s : Step) (k : Nat) (r : Outcome)
    (h : p.heap[k]? = some (SharedState.ready r)) :
    (p.step s).heap[k]? = some (SharedState.ready r) := by
  cases s with
  | enqueue f =>
    cases hs : p.stop
    · simp only [step, enqueue, hs, Bool.false_eq_true, if_false]
      exact (getElem?_append_some _ _ _ _ h).1
    · simp only [step, enqueue, hs, if_true]
      exact h
  | close => exact h
  | wake i =>
    simp only [step]
    rcases wake_cases p i with ⟨e, _⟩ | ⟨_, _, _, e⟩ | ⟨task, rest, _, _, e⟩ <;> rw [e] <;> exact h
  | run i =>
    simp only [step]
    rcases run_cases p i with ⟨e, _⟩ | ⟨task, _, hpend, e⟩ | ⟨task, _, _, e⟩
    · rw [e]; exact h
    · rw [e]
      have hne : task.shared ≠ k := by
        intro e2
        rw [e2, h] at hpend
        cases hpend
      show (p.heap.set task.shared _)[k]? = _
      rw [List.getElem?_set_ne hne]
      exact h
    · rw [e]; exact h

theorem ready_exec (p : ThreadPool) (steps : List Step) (k : Nat) (r : Outcome)
    (h : p.heap[k]? = some (SharedState.ready r)) :
    (p.exec steps).heap[k]? = some (SharedState.ready r) := by
  induction steps generalizing p with
  | nil => exact h
  | cons s rest ih => rw [exec_cons]; exact ih _ (ready_step p s k r h)

/-- A step completes at most one shared state, one that was pending and is ready after. -/
theorem completes_cases (p : ThreadPool) (s : Step) :
    p.completes s = [] ∨
    ∃ i task, s = Step.run i ∧ p.workers[i]? = some (Worker.running task) ∧
      p.completes s = [task.shared] ∧ p.heap[task.shared]? = some SharedState.pending ∧
      (p.step s).heap[task.shared]? = some (SharedState.ready task.body) := by
  cases s with
  | enqueue f => left; rfl
  | close => left; rfl
  | wake i => left; rfl
  | run i =>
    rcases run_cases p i with ⟨_, e⟩ | ⟨task, hw, hpend, e⟩ | ⟨task, hw, hne, _⟩
    · left
      cases hw : p.workers[i]? with
      | none => simp [completes, hw]
      | some w =>
        cases w with
        | running task => exact absurd hw (e task)
        | waiting => simp [completes, hw]
        | exited => simp [completes, hw]
        | aborted => simp [completes, hw]
    · right
      refine ⟨i, task, rfl, hw, ?_, hpend, ?_⟩
      · simp [completes, hw, invoke, hpend]
      · simp only [step]
        rw [e]
        exact List.getElem?_set_self (List.getElem?_eq_some.1 hpend).1
    · left
      have : invoke p.heap task = none := by
        unfold invoke
        split
        · rename_i h; exact absurd h hne
        · rfl
      simp [completes, hw, this]

theorem completed_not_ready (p : ThreadPool) (steps : List Step) :
    ∀ k ∈ p.completed steps, ∀ r, p.heap[k]? ≠ some (SharedState.ready r) := by
  induction steps generalizing p with
  | nil => simp [completed]
  | cons s rest ih =>
    intro k hk r hr
    simp only [completed, List.mem_append] at hk
    rcases hk with hk | hk
    · rcases completes_cases p s with e | ⟨i, task, _, _, e, hpend, _⟩
      · simp [e] at hk
      · rw [e] at hk
        rw [List.mem_singleton.1 hk, hpend] at hr
        cases hr
    · exact ih (p.step s) k hk r (ready_step p s k r hr)

theorem completed_nodup (p : ThreadPool) (steps : List Step) : (p.completed steps).Nodup := by
  induction steps generalizing p with
  | nil => simp [completed]
  | cons s rest ih =>
    simp only [completed]
    rcases completes_cases p s with e | ⟨i, task, _, _, e, _, hready⟩
    · simpa [e] using ih (p.step s)
    · rw [e]
      simp only [List.singleton_append, List.nodup_cons]
      exact ⟨fun hmem => completed_not_ready _ rest _ hmem _ hready, ih _⟩

/-- C2: `enqueue` throws `std::runtime_error` exactly when `stop` is set; a call that throws
leaves the pool, its queue included, as it was; a call with `stop` clear returns a future and
puts exactly one task, wrapping the submitted callable, at the back of the queue; and from
the initial state `stop` is set exactly in the states reached after a call of `close`, in
each of which `enqueue` therefore throws. -/
theorem enqueue_throws_iff_stop :
    (∀ (p : ThreadPool) (f : Outcome),
      (p.enqueue f).1 = EnqueueResult.runtime_error ↔ p.stop = true) ∧
    (∀ (p : ThreadPool) (f : Outcome),
      (p.enqueue f).1 = EnqueueResult.runtime_error → (p.enqueue f).2 = p) ∧
    (∀ (p : ThreadPool) (f : Outcome), p.stop = false →
      ∃ task : Task, task.body = f ∧ (p.enqueue f).1 = EnqueueResult.future task.shared ∧
        (p.enqueue f).2.tasks = p.tasks ++ [task]) ∧
    (∀ (threads : Nat) (steps : List Step),
      ((create.start threads).exec steps).stop = true ↔ Step.close ∈ steps) ∧
    (∀ (p : ThreadPool) (before after : List Step) (f : Outcome),
      ((((p.exec before).close).exec after).enqueue f).1 = EnqueueResult.runtime_error ∧
      ((((p.exec before).close).exec after).enqueue f).2.tasks
        = (((p.exec before).close).exec after).tasks) := by
  refine ⟨?_, ?_, ?_, ?_, ?_⟩
  · intro p f
    cases h : p.stop <;> simp [enqueue, h]
  · intro p f
    cases h : p.stop <;> simp [enqueue, h]
  · intro p f h
    exact ⟨{ shared := p.heap.length, body := f }, rfl, by simp [enqueue, h], by simp [enqueue, h]⟩
  · intro threads steps
    rw [stop_exec]
    simp [create, start]
  · intro p before after f
    have h : (((p.exec before).close).exec after).stop = true := by
      rw [stop_exec]; exact Or.inl rfl
    simp [enqueue, h]

/-- Instance of C2: after `start(2)`, one accepted task and `close()`, a further `enqueue`
throws and the queue still holds exactly the one task. -/
theorem enqueue_throws_iff_stop_witness :
    (((create.start 2).exec [Step.enqueue (Outcome.returned 0), Step.close]).enqueue
        (Outcome.returned 0)).1 = EnqueueResult.runtime_error ∧
    (((create.start 2).exec [Step.enqueue (Outcome.returned 0), Step.close]).enqueue
        (Outcome.returned 0)).2.tasks = [{ shared := 0, body := Outcome.returned 0 }] :=
  ⟨(enqueue_throws_iff_stop.2.2.2.2 (create.start 2) [Step.enqueue (Outcome.returned 0)] []
      (Outcome.returned 0)).1,
   by decide⟩

/-- C1: for every number of workers and every sequence of steps (calls of `enqueue` and of
`close`, workers going through their critical section, workers running their task) from the
pool as constructed and started, the tasks taken by workers so far, in the order taken,
followed by the tasks now in the queue, are the successfully enqueued tasks in enqueue
order.  The enqueued tasks are pairwise distinct (distinct shared states), so are the taken
ones: no task is taken twice, by one worker or by two, none before its insertion, and tasks
leave the queue in insertion order. -/
theorem taken_then_queued_eq_enqueued (threads : Nat) (steps : List Step) :
    ((create.start threads).taken steps).map Prod.snd
        ++ ((create.start threads).exec steps).tasks
      = (create.start threads).enqueued steps ∧
    (((create.start threads).enqueued steps).map Task.shared).Nodup ∧
    ((((create.start threads).taken steps).map Prod.snd).map Task.shared).Nodup := by
  have h := taken_append_tasks (create.start threads) steps
  have hn := enqueued_shared_nodup (create.start threads) steps
  have h0 : (create.start threads).tasks = [] := rfl
  rw [h0, List.nil_append] at h
  refine ⟨h, hn, ?_⟩
  rw [← h, List.map_append] at hn
  exact (List.nodup_append.1 hn).1

/-- C8: in every state reachable from the pool as constructed and started, a worker that
holds a dequeued task finds its shared state pending, and by calling `task()` makes it
ready with what the bound callable did, a thrown exception as well as a returned value,
and is back at the wait of its loop; the result then stays in the shared state along every
further run; no exception ever leaves a worker; and along every run each shared state is
made ready at most once. -/
theorem task_completes_its_future :
    (∀ (threads : Nat) (steps : List Step) (i : Nat) (task : Task),
      ((create.start threads).exec steps).workers[i]? = some (Worker.running task) →
        ((create.start threads).exec steps).heap[task.shared]? = some SharedState.pending ∧
        (((create.start threads).exec steps).run i).workers[i]? = some Worker.waiting ∧
        ((create.start threads).exec steps).completes (Step.run i) = [task.shared] ∧
        ∀ later : List Step,
          ((((create.start threads).exec steps).run i).exec later).heap[task.shared]?
            = some (SharedState.ready task.body)) ∧
    (∀ (threads : Nat) (steps : List Step) (i : Nat),
      ((create.start threads).exec steps).workers[i]? ≠ some Worker.aborted) ∧
    (∀ (threads : Nat) (steps : List Step), ((create.start threads).completed steps).Nodup) := by
  refine ⟨?_, ?_, ?_⟩
  · intro threads steps i task hw
    have hown := owned_exec _ steps (owned_start threads)
    obtain ⟨_, _, h3, _, _⟩ := hown
    have hpend := (h3 i task hw).1
    have hi : i < ((create.start threads).exec steps).workers.length :=
      (List.getElem?_eq_some.1 hw).1
    have hrun : ((create.start threads).exec steps).run i
        = { (create.start threads).exec steps with
            workers := ((create.start threads).exec steps).workers.set i Worker.waiting,
            heap := ((create.start threads).exec steps).heap.set task.shared
              (SharedState.ready task.body) } := by
      simp [run, hw, invoke, hpend]
    refine ⟨hpend, ?_, ?_, ?_⟩
    · rw [hrun]
      exact List.getElem?_set_self hi
    · simp [completes, hw, invoke, hpend]
    · intro later
      apply ready_exec
      rw [hrun]
      exact List.getElem?_set_self (List.getElem?_eq_some.1 hpend).1
  · intro threads steps i
    exact (owned_exec _ steps (owned_start threads)).2.2.2.2 i
  · intro threads steps
    exact completed_nodup _ steps

/-- Instance of C8: one worker, one task whose callable throws.  After the worker ran it,
the future holds the exception and the worker waits again; it then takes and completes the
next task. -/
theorem task_completes_its_future_witness :
    (((create.start 1).exec [Step.enqueue (Outcome.threw 7), Step.wake 0]).run 0).workers[0]?
        = some Worker.waiting ∧
    ((((create.start 1).exec [Step.enqueue (Outcome.threw 7), Step.wake 0]).run 0).exec
        [Step.enqueue (Outcome.returned 0), Step.wake 0, Step.run 0]).heap
        = [SharedState.ready (Outcome.threw 7), SharedState.ready (Outcome.returned 0)] :=
  ⟨(task_completes_its_future.1 1 [Step.enqueue (Outcome.threw 7), Step.wake 0] 0
      { shared := 0, body := Outcome.threw 7 } (by decide)).2.1,
   by decide⟩

/-- C9 fails on the code: `close` is the assignment `stop = true` and nothing more.  When it
returns, every worker is where it was and the queue is what it was: after `start(2)` and one
accepted task, `close()` returns with both workers still at their wait and the task still
queued. -/
theorem close_returns_with_workers_waiting :
    (∀ p : ThreadPool, p.close.workers = p.workers ∧ p.close.tasks = p.tasks) ∧
    (((create.start 2).exec [Step.enqueue (Outcome.returned 0)]).close).workers
      = [Worker.waiting, Worker.waiting] ∧
    (((create.start 2).exec [Step.enqueue (Outcome.returned 0)]).close).tasks
      = [{ shared := 0, body := Outcome.returned 0 }] ∧
    ¬ (∀ w ∈ (((create.start 2).exec [Step.enqueue (Outcome.returned 0)]).close).workers,
        w = Worker.exited) := by
  refine ⟨fun p => ⟨rfl, rfl⟩, by decide, by decide, by decide⟩

end ThreadPool

end Sudoku

/-! ## Properties of the driver -/

namespace Sudoku

theorem wrapInt_eq (x : Int) (h1 : -2147483648 ≤ x) (h2 : x ≤ 2147483647) : wrapInt x = x := by
  unfold wrapInt
  omega

namespace file_process

/-- Without overflow `len` is the quotient of `line_num + thread_num` by `thread_num`,
one more than the quotient of `line_num`. -/
theorem len_eq (n w : Int) (hn : 0 ≤ n) (hw : 1 ≤ w) (hmax : n + w ≤ INT_MAX) :
    len n w = (n + w) / w ∧ len n w = n / w + 1 := by
  have h1 : wrapInt (n + w) = n + w := by
    apply wrapInt_eq
    · omega
    · simpa [INT_MAX] using hmax
  have h2 : len n w = (n + w) / w := by
    unfold len
    rw [h1, Int.tdiv_eq_ediv (by omega) (by omega)]
  refine ⟨h2, ?_⟩
  rw [h2]
  have := Int.add_mul_ediv_right n 1 (c := w) (by omega)
  simpa using this

theorem len_bounds (n w : Int) (hn : 0 ≤ n) (hw : 1 ≤ w) (hmax : n + w ≤ INT_MAX) :
    1 ≤ len n w ∧ n < w * len n w ∧ w * len n w ≤ INT_MAX := by
  obtain ⟨h1, h2⟩ := len_eq n w hn hw hmax
  have hq : 0 ≤ n / w := Int.ediv_nonneg hn (by omega)
  have hlt : n < w * (n / w) + w := Int.lt_mul_ediv_self_add (by omega)
  have hle : w * ((n + w) / w) ≤ n + w := Int.mul_ediv_self_le (by omega)
  refine ⟨by omega, ?_, ?_⟩
  · rw [h2, mul_add, mul_one]; exact hlt
  · rw [h1]; exact le_trans hle hmax

/-- The loop of lines 137-143 submits, at its iteration `i`, the pair
`(start + i * len, min (start + (i + 1) * len) line_num)`, as long as no addition
overflows. -/
theorem ranges_getElem? (n len : Int) (count : Nat) (start : Int) (i : Nat)
    (hlen : 1 ≤ len) (hstart : 0 ≤ start) (hmax : start + count * len ≤ INT_MAX)
    (hi : i < count) :
    (ranges n len count start)[i]?
      = some (start + i * len, min (start + (i + 1) * len) n) := by
  induction count generalizing start i with
  | zero => omega
  | succ count ih =>
    have hc : (0 : Int) ≤ count * len := by positivity
    have hmax2 : start + len + count * len ≤ INT_MAX := by
      have : ((count + 1 : Nat) : Int) * len = count * len + len := by push_cast; ring
      rw [this] at hmax; omega
    have hw : wrapInt (start + len) = start + len := by
      apply wrapInt_eq
      · omega
      · simp only [INT_MAX] at hmax2; omega
    cases i with
    | zero =>
      simp only [ranges, hw, List.getElem?_cons_zero, Nat.cast_zero, zero_mul, add_zero,
        zero_add, one_mul]
      congr 2
      simp only [min_def]
      split_ifs <;> omega
    | succ i =>
      simp only [ranges, hw, List.getElem?_cons_succ]
      rw [ih (start + len) i (by omega) hmax2 (by omega)]
      congr 2
      · push_cast; ring
      · congr 1; push_cast; ring

theorem ranges_length (n len : Int) (count : Nat) (start : Int) :
    (ranges n len count start).length = count := by
  induction count generalizing start with
  | zero => rfl
  | succ count ih => simp [ranges, ih]

theorem ranges_countP (n len : Int) (count : Nat) (start i : Int)
    (hlen : 1 ≤ len) (hstart : 0 ≤ start) (hmax : start + count * len ≤ INT_MAX) :
    (ranges n len count start).countP (fun r => decide (r.1 ≤ i ∧ i < r.2))
      = if start ≤ i ∧ i < start + count * len ∧ i < n then 1 else 0 := by
  induction count generalizing start with
  | zero =>
    simp only [ranges, List.countP_nil, Nat.cast_zero, zero_mul, add_zero]
    split_ifs <;> omega
  | succ count ih =>
    have hc : (0 : Int) ≤ count * len := by positivity
    have hsucc : ((count + 1 : Nat) : Int) * len = count * len + len := by push_cast; ring
    have hmax2 : start + len + count * len ≤ INT_MAX := by
      rw [hsucc] at hmax; omega
    have hw : wrapInt (start + len) = start + len := by
      apply wrapInt_eq
      · omega
      · simp only [INT_MAX] at hmax2; omega
    simp only [ranges, hw, List.countP_cons]
    rw [ih (start + len) (by omega) hmax2, hsucc]
    generalize (count : Int) * len = c at hc
    by_cases h1 : start + len ≥ n
    · simp only [h1, if_true, decide_eq_true_eq]
      split_ifs <;> omega
    · simp only [h1, if_false, decide_eq_true_eq]
      split_ifs <;> omega

theorem partition_getElem? (n w : Int) (i : Nat) (hn : 0 ≤ n) (hw : 1 ≤ w)
    (hmax : n + w ≤ INT_MAX) (hi : (i : Int) < w) :
    (partition n w)[i]? = some (i * len n w, min ((i + 1) * len n w) n) := by
  obtain ⟨h1, _, h3⟩ := len_bounds n w hn hw hmax
  have hcast : ((w.toNat : Nat) : Int) = w := Int.toNat_of_nonneg (by omega)
  have := ranges_getElem? n (len n w) w.toNat 0 i h1 le_rfl
    (by rw [hcast, zero_add]; exact h3) (by omega)
  simpa [partition] using this

theorem solve_empty (solver : Board → Board) (puzzle_buf : PuzzleBuf) (start end_ : Int)
    (h : end_ ≤ start) : (solve solver puzzle_buf start end_).1 = puzzle_buf := by
  have : (end_ - start).toNat = 0 := by omega
  simp [solve, this]

end file_process

/-- C4: for `n` records and `w ≥ 1` workers (the sum `n + w` formed in line 134 being an
`int`, so in particular for every `n ≤ 10240`), every index `i` with `0 ≤ i < n` lies in
`[start, end)` for exactly one of the pairs the partition loop submits, and an index
outside `[0, n)` lies in none. -/
theorem partition_covers_each_index_once (n w i : Int) (hn : 0 ≤ n) (hw : 1 ≤ w)
    (hmax : n + w ≤ INT_MAX) :
    (file_process.partition n w).countP (fun r => decide (r.1 ≤ i ∧ i < r.2))
      = if 0 ≤ i ∧ i < n then 1 else 0 := by
  obtain ⟨h1, h2, h3⟩ := file_process.len_bounds n w hn hw hmax
  have hcast : ((w.toNat : Nat) : Int) = w := Int.toNat_of_nonneg (by omega)
  have := file_process.ranges_countP n (file_process.len n w) w.toNat 0 i h1 le_rfl
    (by rw [hcast, zero_add]; exact h3)
  rw [file_process.partition, this, hcast]
  split_ifs <;> omega

/-- Instance of C4: 25 records and 4 workers give `[0,7)`, `[7,14)`, `[14,21)`, `[21,25)`,
and record 14 lies in exactly one of them. -/
theorem partition_covers_each_index_once_witness :
    file_process.partition 25 4 = [(0, 7), (7, 14), (14, 21), (21, 25)] ∧
    (file_process.partition 25 4).countP (fun r => decide (r.1 ≤ (14 : Int) ∧ (14 : Int) < r.2))
      = 1 :=
  ⟨by decide,
   partition_covers_each_index_once 25 4 14 (by decide) (by decide) (by decide)⟩

/-- C7: for `n ≥ 0` records, `w ≥ 1` workers and every `i < w`, the range submitted at
iteration `i` of the partition loop is `[i * chunk, min ((i + 1) * chunk) n)` with
`chunk = (n + w) / w`; the loop submits `w` ranges. -/
theorem partition_ith_range (n w : Int) (i : Nat) (hn : 0 ≤ n) (hw : 1 ≤ w)
    (hmax : n + w ≤ INT_MAX) (hi : (i : Int) < w) :
    (file_process.partition n w)[i]?
      = some ((i : Int) * ((n + w) / w), min (((i : Int) + 1) * ((n + w) / w)) n) ∧
    ((file_process.partition n w).length : Int) = w := by
  refine ⟨?_, ?_⟩
  · rw [file_process.partition_getElem? n w i hn hw hmax hi,
      (file_process.len_eq n w hn hw hmax).1]
  · rw [file_process.partition, file_process.ranges_length]
    exact Int.toNat_of_nonneg (by omega)

/-- Instance of C7: 25 records, 4 workers, the last range is `[3 * 7, min (4 * 7) 25)`. -/
theorem partition_ith_range_witness :
    (file_process.partition 25 4)[3]?
      = some (((3 : Nat) : Int) * ((25 + 4) / 4), min ((((3 : Nat) : Int) + 1) * ((25 + 4) / 4)) 25) ∧
    ((file_process.partition 25 4).length : Int) = 4 :=
  partition_ith_range 25 4 3 (by decide) (by decide) (by decide) (by decide)

/-- C5 as stated fails: for 2 records and 8 workers the partition loop submits eight
tasks, six of them with a start index that is not below 2. -/
theorem partition_submits_degenerate_ranges :
    file_process.partition 2 8
      = [(0, 1), (1, 2), (2, 2), (3, 2), (4, 2), (5, 2), (6, 2), (7, 2)] ∧
    ¬ (∀ r ∈ file_process.partition 2 8, r.1 < 2) ∧
    (file_process.partition 2 8).length ≠ 2 := by
  have h : file_process.partition 2 8
      = [(0, 1), (1, 2), (2, 2), (3, 2), (4, 2), (5, 2), (6, 2), (7, 2)] := by decide
  refine ⟨h, ?_, ?_⟩
  · intro hall
    have := hall (2, 2) (by rw [h]; simp)
    exact absurd this (by decide)
  · rw [h]; decide

/-- C5, amended: for `n ≥ 0` records and `w ≥ 1` workers the partition loop calls
`enqueue` once in each of its `w` iterations, whatever the start index.  A submitted range
whose start is at least `n` has `end = n`, so it is empty and `solve` leaves the buffer
untouched; a submitted range whose start is below `n` is not empty. -/
theorem partition_submits_every_range (n w : Int) (hn : 0 ≤ n) (hw : 1 ≤ w)
    (hmax : n + w ≤ INT_MAX) :
    ((file_process.partition n w).length : Int) = w ∧
    ∀ r ∈ file_process.partition n w,
      (n ≤ r.1 → r.2 = n ∧
        ∀ (solver : Board → Board) (puzzle_buf : PuzzleBuf),
          (solve solver puzzle_buf r.1 r.2).1 = puzzle_buf) ∧
      (r.1 < n → r.1 < r.2) := by
  obtain ⟨h1, _, _⟩ := file_process.len_bounds n w hn hw hmax
  have hlen : (file_process.partition n w).length = w.toNat := by
    rw [file_process.partition, file_process.ranges_length]
  have hcast : ((w.toNat : Nat) : Int) = w := Int.toNat_of_nonneg (by omega)
  refine ⟨by rw [hlen, hcast], ?_⟩
  intro r hr
  obtain ⟨i, hi, hget⟩ := List.getElem_of_mem hr
  have hget2 : (file_process.partition n w)[i]? = some r := by
    rw [List.getElem?_eq_getElem hi, hget]
  rw [file_process.partition_getElem? n w i hn hw hmax (by omega)] at hget2
  have hr2 := (Option.some.inj hget2).symm
  have hc : (0 : Int) ≤ i * file_process.len n w := by positivity
  have hs : ((i : Int) + 1) * file_process.len n w
      = i * file_process.len n w + file_process.len n w := by ring
  rw [hr2, hs]
  generalize (i : Int) * file_process.len n w = c at hc
  simp only
  refine ⟨?_, ?_⟩
  · intro hge
    have he : min (c + file_process.len n w) n = n := by
      simp only [min_def]; split_ifs <;> omega
    refine ⟨he, ?_⟩
    intro solver puzzle_buf
    apply file_process.solve_empty
    rw [he]; exact hge
  · intro hlt
    simp only [min_def]; split_ifs <;> omega

/-- Instance of C5, amended: 2 records, 8 workers, 8 submitted ranges. -/
theorem partition_submits_every_range_witness :
    ((file_process.partition 2 8).length : Int) = 8 :=
  (partition_submits_every_range 2 8 (by decide) (by decide) (by decide)).1

/-- C6 as stated fails: for 8 records and 4 workers `len` is 3 and `ceil(8 / 4)` is 2. -/
theorem len_ne_ceil :
    file_process.len 8 4 = 3 ∧ ⌈((8 : Int) : ℚ) / ((4 : Int) : ℚ)⌉ = 2 ∧
    file_process.len 8 4 ≠ ⌈((8 : Int) : ℚ) / ((4 : Int) : ℚ)⌉ := by
  have h1 : file_process.len 8 4 = 3 := by decide
  have h2 : ⌈((8 : Int) : ℚ) / ((4 : Int) : ℚ)⌉ = 2 := by
    rw [Int.ceil_eq_iff]
    norm_num
  refine ⟨h1, h2, ?_⟩
  rw [h1, h2]
  decide

/-- C6, amended: for `n ≥ 0` records and `w ≥ 1` workers `len` is `floor(n / w) + 1`;
it is `ceil(n / w)` exactly when `w` does not divide `n`, and `ceil(n / w) + 1` when it
does. -/
theorem len_eq_floor_add_one (n w : Int) (hn : 0 ≤ n) (hw : 1 ≤ w)
    (hmax : n + w ≤ INT_MAX) :
    file_process.len n w = ⌊(n : ℚ) / (w : ℚ)⌋ + 1 ∧
    (¬ w ∣ n → file_process.len n w = ⌈(n : ℚ) / (w : ℚ)⌉) ∧
    (w ∣ n → file_process.len n w = ⌈(n : ℚ) / (w : ℚ)⌉ + 1) := by
  obtain ⟨_, h2⟩ := file_process.len_eq n w hn hw hmax
  have hwq : (0 : ℚ) < (w : ℚ) := by exact_mod_cast (by omega : (0 : Int) < w)
  have hdiv : w * (n / w) + n % w = n := Int.ediv_add_emod n w
  have hr0 : 0 ≤ n % w := Int.emod_nonneg n (by omega)
  have hr1 : n % w < w := Int.emod_lt_of_pos n (by omega)
  have hq : (n : ℚ) / (w : ℚ) = ((n / w : Int) : ℚ) + ((n % w : Int) : ℚ) / (w : ℚ) := by
    have : (n : ℚ) = (w : ℚ) * ((n / w : Int) : ℚ) + ((n % w : Int) : ℚ) := by
      exact_mod_cast hdiv.symm
    field_simp
    linarith
  have hf0 : (0 : ℚ) ≤ ((n % w : Int) : ℚ) / (w : ℚ) :=
    div_nonneg (by exact_mod_cast hr0) hwq.le
  have hf1 : ((n % w : Int) : ℚ) / (w : ℚ) < 1 := by
    rw [div_lt_one hwq]; exact_mod_cast hr1
  have hfloor : ⌊(n : ℚ) / (w : ℚ)⌋ = n / w := by
    rw [Int.floor_eq_iff, hq]
    constructor <;> linarith
  refine ⟨by rw [h2, hfloor], ?_, ?_⟩
  · intro hnd
    have hrpos : 0 < n % w := by
      rcases lt_or_eq_of_le hr0 with h | h
      · exact h
      · exact absurd (Int.dvd_of_emod_eq_zero h.symm) hnd
    have hfpos : (0 : ℚ) < ((n % w : Int) : ℚ) / (w : ℚ) :=
      div_pos (by exact_mod_cast hrpos) hwq
    rw [h2]
    symm
    rw [Int.ceil_eq_iff, hq]
    push_cast
    constructor <;> linarith
  · intro hd
    have hrz : n % w = 0 := Int.emod_eq_zero_of_dvd hd
    rw [h2]
    have : ⌈(n : ℚ) / (w : ℚ)⌉ = n / w := by
      rw [Int.ceil_eq_iff, hq, hrz]
      simp
    rw [this]

/-- Instance of C6, amended: 25 records and 4 workers, where 4 does not divide 25, and
8 records and 4 workers, where it does. -/
theorem len_eq_floor_add_one_witness :
    file_process.len 25 4 = ⌈((25 : Int) : ℚ) / ((4 : Int) : ℚ)⌉ ∧
    file_process.len 8 4 = ⌈((8 : Int) : ℚ) / ((4 : Int) : ℚ)⌉ + 1 :=
  ⟨(len_eq_floor_add_one 25 4 (by decide) (by decide) (by decide)).2.1 (by decide),
   (len_eq_floor_add_one 8 4 (by decide) (by decide) (by decide)).2.2 (by decide)⟩

namespace ifstream

theorem getlineLoop_line (r rest : List Nat) (room : Nat) (stored : List Nat)
    (hr : ∀ b ∈ r, b ≠ 10) (hroom : r.length ≤ room) :
    getlineLoop (r ++ 10 :: rest) room stored = (stored ++ r, rest, false, false) := by
  induction r generalizing room stored with
  | nil => simp [getlineLoop]
  | cons c cs ih =>
    have hc : c ≠ 10 := hr c (List.mem_cons_self _ _)
    cases room with
    | zero => simp at hroom
    | succ room =>
      simp only [List.cons_append, getlineLoop, hc, if_false, List.append_eq]
      rw [ih room (stored ++ [c]) (fun b hb => hr b (List.mem_cons_of_mem _ hb))
        (by simpa using hroom)]
      simp

/-- On a good stream whose next line has exactly `N` characters, `getline(s, N + 1)`
stores the line, extracts its delimiter and leaves the stream good. -/
theorem getline_line (N : Nat) (r rest : List Nat) (hr : ∀ b ∈ r, b ≠ 10)
    (hlen : r.length = N) :
    getline { data := r ++ 10 :: rest, eofbit := false, failbit := false } (N + 1)
      = (r, { data := rest, eofbit := false, failbit := false }) := by
  simp only [getline, Bool.or_self, Bool.false_eq_true, if_false, Nat.add_sub_cancel]
  rw [getlineLoop_line r rest N [] hr (le_of_eq hlen)]
  simp only [List.nil_append, List.length_append, List.length_cons, Bool.false_or]
  have : r.length + (rest.length + 1) - rest.length ≠ 0 := by omega
  simp [this]

/-- On a good stream at the end of the file, `getline` stores the empty string and sets
`eofbit` and `failbit`. -/
theorem getline_end (count : Nat) :
    getline { data := [], eofbit := false, failbit := false } count
      = ([], { data := [], eofbit := true, failbit := true }) := by
  simp [getline, getlineLoop]

end ifstream

theorem strlen_eq_length (r : List Nat) (hr : ∀ b ∈ r, b ≠ 0) : strlen r = r.length := by
  unfold strlen
  rw [List.takeWhile_eq_self_iff.2]
  intro b hb
  simpa using hr b hb

theorem putchar_charToInt (b : Nat) (hb : b < 256) :
    putchar (wrapInt (48 + wrapInt (charToInt b - 48))) = b := by
  unfold putchar charToInt
  split_ifs with h
  · rw [wrapInt_eq ((b : Int) - 48) (by omega) (by omega), wrapInt_eq _ (by omega) (by omega)]
    omega
  · rw [wrapInt_eq ((b : Int) - 256 - 48) (by omega) (by omega),
      wrapInt_eq _ (by omega) (by omega)]
    omega

theorem print_succ (N : Nat) (puzzle_buf : PuzzleBuf) (m : Nat) :
    print N puzzle_buf (m + 1)
      = print N puzzle_buf m
        ++ ((List.range N).map (fun j => putchar (wrapInt (48 + puzzle_buf m j))) ++ [putchar 10]) := by
  simp [print, List.range_succ]

theorem print_congr (N : Nat) (buf1 buf2 : PuzzleBuf) (m : Nat)
    (h : ∀ i, i < m → buf1 i = buf2 i) : print N buf1 m = print N buf2 m := by
  induction m with
  | zero => rfl
  | succ m ih =>
    rw [print_succ, print_succ, ih (fun i hi => h i (by omega)), h m (by omega)]

/-- A record stored by lines 120-121 is printed by `print` as it was read. -/
theorem print_store (N : Nat) (r : List Nat) (row : Board) (hr : IsRecord N r) :
    (List.range N).map (fun j => putchar (wrapInt (48 + file_process.store N r row j))) = r := by
  obtain ⟨hlen, hb⟩ := hr
  apply List.ext_getElem
  · simp [hlen]
  · intro j h1 h2
    have hj : j < N := by simpa using h1
    simp only [List.getElem_map, List.getElem_range, file_process.store, hj, if_true]
    rw [List.getD_eq_getElem _ _ h2]
    exact putchar_charToInt _ (hb _ (List.getElem_mem h2)).2.2

theorem solve_id (puzzle_buf : PuzzleBuf) (start end_ : Int) :
    (solve id puzzle_buf start end_).1 = puzzle_buf := by
  unfold solve
  exact List.foldl_fixed' (fun k => by simp) _

theorem solveAll_id (thread_num : Int) (line_num : Nat) (puzzle_buf : PuzzleBuf) :
    file_process.solveAll id thread_num line_num puzzle_buf = puzzle_buf := by
  unfold file_process.solveAll
  exact List.foldl_fixed' (fun r => solve_id puzzle_buf r.1 r.2) _

/-- The read loop on a stream holding `records`, each a line of `N` characters that fits
`one_puzzle`, with room for all of them in the buffer: it ends, having counted them all,
and `print` then emits what it emitted for the earlier records followed by the records
read.  The stream is left at the end of the file, `eofbit` set unless the buffer is full. -/
theorem readLoop_records (N : Nat) (hN : 0 < N) (hN2 : N ≤ 127) (records : List (List Nat))
    (hrec : ∀ r ∈ records, IsRecord N r) (fuel m : Nat) (puzzle_buf : PuzzleBuf)
    (hm : m + records.length ≤ puzzle_buf_num) (hfuel : records.length + 2 ≤ fuel) :
    ∃ (rest : ifstream) (buf : PuzzleBuf),
      file_process.readLoop N fuel
          { data := lines records, eofbit := false, failbit := false } m puzzle_buf
        = some (rest, m + records.length, buf) ∧
      print N buf (m + records.length) = print N puzzle_buf m ++ lines records ∧
      (rest.eofbit = true ∨
        (m + records.length = puzzle_buf_num ∧
          rest = { data := [], eofbit := false, failbit := false })) := by
  induction records generalizing fuel m puzzle_buf with
  | nil =>
    simp only [List.length_nil] at hfuel hm
    obtain ⟨fuel, rfl⟩ : ∃ f, fuel = f + 2 := ⟨fuel - 2, by omega⟩
    by_cases hfull : m < puzzle_buf_num
    · refine ⟨{ data := [], eofbit := true, failbit := true }, puzzle_buf, ?_, ?_, Or.inl rfl⟩
      · have hs : ¬ (strlen [] ≥ N) := by simp [strlen]; omega
        have hfit : ¬ (0 + 1 > one_puzzle_size) := by
          simp [one_puzzle_size]
        simp only [lines, List.flatMap_nil, file_process.readLoop, ifstream.eof,
          Bool.not_false, Bool.true_and, decide_eq_true_eq, hfull, if_true,
          ifstream.getline_end, hfit, hs, if_false, Bool.not_true, Bool.false_and,
          Bool.false_eq_true, List.length_nil, add_zero]
      · simp [lines]
    · refine ⟨{ data := [], eofbit := false, failbit := false }, puzzle_buf, ?_, ?_, Or.inr ⟨?_, rfl⟩⟩
      · simp [lines, file_process.readLoop, hfull]
      · simp [lines]
      · simp only [List.length_nil]; omega
  | cons r rs ih =>
    simp only [List.length_cons] at hfuel hm
    obtain ⟨fuel, rfl⟩ : ∃ f, fuel = f + 1 := ⟨fuel - 1, by omega⟩
    have hr : IsRecord N r := hrec r (List.mem_cons_self _ _)
    have hfull : m < puzzle_buf_num := by omega
    have hline : lines (r :: rs) = r ++ 10 :: lines rs := by simp [lines]
    have hs : strlen r ≥ N := by
      rw [strlen_eq_length r (fun b hb => (hr.2 b hb).1), hr.1]
    have hfit : ¬ (r.length + 1 > one_puzzle_size) := by
      rw [hr.1]; simp only [one_puzzle_size]; omega
    obtain ⟨rest, buf, h1, h2, h3⟩ := ih (fun x hx => hrec x (List.mem_cons_of_mem _ hx)) fuel
      (m + 1) (Function.update puzzle_buf m (file_process.store N r (puzzle_buf m)))
      (by omega) (by omega)
    refine ⟨rest, buf, ?_, ?_, ?_⟩
    · rw [hline]
      simp only [file_process.readLoop, ifstream.eof, Bool.not_false, Bool.true_and,
        decide_eq_true_eq, hfull, if_true,
        ifstream.getline_line N r (lines rs) (fun b hb => (hr.2 b hb).2.1) hr.1, hfit,
        if_false, hs]
      rw [h1]
      simp only [List.length_cons]
      congr 3
      omega
    · have e : m + (r :: rs).length = m + 1 + rs.length := by simp; omega
      rw [e, h2, print_succ, hline]
      simp only [Function.update_same, print_store N r _ hr]
      rw [print_congr N (Function.update puzzle_buf m (file_process.store N r (puzzle_buf m)))
        puzzle_buf m (fun i hi => Function.update_noteq (by omega) _ _)]
      simp [putchar]
    · have e : m + (r :: rs).length = m + 1 + rs.length := by simp; omega
      rw [e]
      exact h3

theorem batches_eof (N : Nat) (solver : Board → Board) (thread_num : Int) (fuel : Nat)
    (input_file : ifstream) (puzzle_buf : PuzzleBuf) (h : input_file.eofbit = true)
    (hfuel : 1 ≤ fuel) :
    file_process.batches N solver thread_num fuel input_file puzzle_buf = some [] := by
  obtain ⟨fuel, rfl⟩ : ∃ f, fuel = f + 1 := ⟨fuel - 1, by omega⟩
  simp [file_process.batches, ifstream.eof, h]

/-- C10: with the identity as solver, at least one worker (`thread_num ≥ 1`, with
`line_num + thread_num` of line 134 an `int`), a record width `N` from 1 to 127 (a record
and its terminating zero fit `char one_puzzle[128]`), whatever the contents of `puzzle_buf`
before, and a file made of at most 10240 records, each a line of exactly `N` characters,
that is `N` bytes below 256 none of which is the zero byte (which ends the string that
`strlen` measures) or the newline (which ends the line): `file_process` ends (any fuel from
the number of records plus 4 is enough) and writes the file as it is, the records byte for
byte, in order, each followed by a newline. -/
theorem file_process_identity_roundtrip (N : Nat) (thread_num : Int)
    (records : List (List Nat)) (puzzle_buf : PuzzleBuf) (fuel : Nat)
    (hN : 0 < N) (hN2 : N ≤ 127) (hw : 1 ≤ thread_num)
    (hmax : (records.length : Int) + thread_num ≤ INT_MAX)
    (hlen : records.length ≤ puzzle_buf_num)
    (hrec : ∀ r ∈ records, r.length = N ∧ ∀ b ∈ r, b ≠ 0 ∧ b ≠ 10 ∧ b < 256)
    (hfuel : records.length + 4 ≤ fuel) :
    file_process N id thread_num puzzle_buf fuel (lines records) = some (lines records) := by
  obtain ⟨fuel, rfl⟩ : ∃ f, fuel = f + 1 := ⟨fuel - 1, by omega⟩
  obtain ⟨rest, buf, h1, h2, h3⟩ := readLoop_records N hN hN2 records hrec fuel 0 puzzle_buf
    (by omega) (by omega)
  have hout : print N buf (0 + records.length) = lines records := by
    rw [h2]; simp [print]
  have hdef : ¬ (thread_num = 0 ∨ ((0 + records.length : Nat) : Int) + thread_num > INT_MAX) := by
    push_cast
    omega
  have hdef0 : ¬ (thread_num = 0 ∨ ((0 : Nat) : Int) + thread_num > INT_MAX) := by
    push_cast
    omega
  have hrest : file_process.batches N id thread_num fuel rest buf = some [] := by
    rcases h3 with h3 | ⟨_, h3⟩
    · exact batches_eof N id thread_num fuel rest buf h3 (by omega)
    · obtain ⟨fuel, rfl⟩ : ∃ f, fuel = f + 1 := ⟨fuel - 1, by omega⟩
      obtain ⟨rest2, buf2, k1, _, k3⟩ := readLoop_records N hN hN2 [] (by simp) fuel 0 buf
        (by simp) (by simp only [List.length_nil]; omega)
      have k4 : rest2.eofbit = true := by
        rcases k3 with k3 | ⟨k3, _⟩
        · exact k3
        · simp [puzzle_buf_num] at k3
      have k5 := batches_eof N id thread_num fuel rest2 buf2 k4 (by omega)
      rw [h3]
      simp only [lines, List.flatMap_nil, List.length_nil, add_zero] at k1
      simp only [file_process.batches, ifstream.eof, Bool.not_false, if_true, k1, hdef0,
        if_false, solveAll_id, k5, print, List.range_zero, List.flatMap_nil, List.append_nil]
  simp only [file_process, file_process.batches, ifstream.ofFile, ifstream.eof, Bool.not_false,
    if_true, h1, hdef, if_false, solveAll_id, hrest, hout, List.append_nil]

/-- Instance of C10: two records of width 2, `12` and `34`, four workers. -/
theorem file_process_identity_roundtrip_witness :
    file_process 2 id 4 (fun _ _ => 0) 6 (lines [[49, 50], [51, 52]])
      = some [49, 50, 10, 51, 52, 10] :=
  file_process_identity_roundtrip 2 4 [[49, 50], [51, 52]] (fun _ _ => 0) 6
    (by decide) (by decide) (by decide) (by decide) (by decide) (by simp) (by decide)

end Sudoku
